import Mathlib

/-!
Verification of the bencode codec of `torrentlib` (`src/bencode.rs`,
`src/error.rs`) against its natural-language specification.

The byte source (`io::Bytes<R>`) is modelled as a pure list of bytes
(`List Nat`), so `io::Error` results cannot arise.  Every parser takes the
remaining bytes and returns its outcome together with the bytes left over,
mirroring the iterator state that Rust threads implicitly.  The mutual
recursion of `Benc::node` / `Benc::list` / `Benc::dict` is made structural by
an explicit fuel parameter; `Benc.new` supplies a fuel computed from the
input length that is proved sufficient (`Err.fuelOut` is unreachable there).
-/

namespace Torrentlib

/-- A byte stream: `io::Bytes<R>` without I/O failures. -/
abbrev Bytes := List Nat

/-- `usize::MAX` on the 64-bit targets the crate assumes. -/
def USIZE_MAX : Nat := 2 ^ 64 - 1

/-- `i64::MAX`. -/
def I64_MAX : Nat := 2 ^ 63 - 1

/-- `error::Error` from `src/error.rs`.  `io` carries no payload because the
modelled byte source never fails.  `fuelOut` is an artifact of the fuel-based
embedding and is proved unreachable for the fuel that `Benc.new` supplies. -/
inductive Err where
  | io : Err
  | other : String → Err
  | delim : Nat → Err
  | endOfFile : Err
  | fuelOut : Err
deriving DecidableEq

/-- The `Benc` value enum from `src/bencode.rs`.  The Rust `Dict` is a
`HashMap<Vec<u8>, Benc>`; since the decoder only ever inserts keys in strictly
increasing byte order, the map is represented by its association list in
insertion order, on which `HashMap` equality coincides with list equality. -/
inductive Benc where
  | BString : List Nat → Benc
  | BInt : Int → Benc
  | BList : List Benc → Benc
  | BDict : List (List Nat × Benc) → Benc

/-- Strict lexicographic order on byte vectors: `Ord` on Rust `Vec<u8>`.
`lexLt a b` is `a < b`. -/
def lexLt : List Nat → List Nat → Bool
  | _, [] => false
  | [], _ :: _ => true
  | x :: xs, y :: ys => if x < y then true else if x = y then lexLt xs ys else false

/-- `b'0'...b'9'` range test used by `NodeType::type_of` and the sub-parsers. -/
def isDigit (c : Nat) : Bool := 48 ≤ c && c ≤ 57

/-- The byte-reading loop at the end of `Benc::string`: push bytes and count
`len` down, stopping when it reaches zero or the source is exhausted.  Returns
the buffer, the remaining count, and the rest of the stream. -/
def readBody : Bytes → Nat → (List Nat × Nat × Bytes)
  | [], len => ([], len, [])
  | b :: bs, len =>
    if len ≤ 1 then ([b], 0, bs)
    else
      let r := readBody bs (len - 1)
      (b :: r.1, r.2.1, r.2.2)

/-- The tail of `Benc::string` after the length prefix has been read: reject a
zero length, then read exactly `len` raw bytes. -/
def stringBody (bs : Bytes) (len : Nat) : Except Err (List Nat) × Bytes :=
  if len = 0 then (.error (.other "Invalid string bencoding"), bs)
  else if (readBody bs len).2.1 = 0 then (.ok (readBody bs len).1, (readBody bs len).2.2)
  else (.error (.other "Invalid string bencoding"), (readBody bs len).2.2)

/-- The digit loop of `Benc::string`: accumulate decimal digits into `len`
with `usize` checked arithmetic until a `:` is read.  Exhausting the source
falls through to `stringBody` on the empty stream, exactly like the Rust
`for` loop running off the end. -/
def stringAux : Bytes → Nat → Except Err (List Nat) × Bytes
  | [], len => stringBody [] len
  | b :: bs, len =>
    if isDigit b then
      if len * 10 + (b - 48) ≤ USIZE_MAX then stringAux bs (len * 10 + (b - 48))
      else (.error (.other "Integer overflow"), bs)
    else if b = 58 then stringBody bs len
    else (.error (.other "Invalid string bencoding"), bs)

/-- `Benc::string`: `c` is the first, already read byte of the node. -/
def Benc.string (bs : Bytes) (c : Nat) : Except Err (List Nat) × Bytes :=
  if isDigit c then stringAux bs (c - 48)
  else (.error (.other "Invalid string bencoding"), bs)

/-- The digit loop of `Benc::int`: accumulate into a non-negative `i64` with
checked arithmetic until the terminating `e`; `sign` is applied on return. -/
def intAux : Bytes → Nat → Int → Except Err Int × Bytes
  | [], _, _ => (.error (.other "Invalid int bencoding"), [])
  | b :: bs, num, sign =>
    if isDigit b then
      if num * 10 + (b - 48) ≤ I64_MAX then intAux bs (num * 10 + (b - 48)) sign
      else (.error (.other "Integer overflow"), bs)
    else if b = 101 then (.ok (sign * (num : Int)), bs)
    else (.error (.other "Invalid int bencoding"), bs)

/-- The `-` branch of `Benc::int`: the very next byte must be `1`–`9`. -/
def intNeg : Bytes → Except Err Int × Bytes
  | [] => (.error (.other "Invalid int bencoding"), [])
  | c :: bs' =>
    if 49 ≤ c ∧ c ≤ 57 then intAux bs' (c - 48) (-1)
    else (.error (.other "Invalid int bencoding"), bs')

/-- The leading-`0` branch of `Benc::int`: only the terminator may follow. -/
def intZero : Bytes → Except Err Int × Bytes
  | [] => (.error (.other "Invalid int bencoding"), [])
  | c :: bs' =>
    if c = 101 then (.ok 0, bs')
    else (.error (.other "Invalid int bencoding"), bs')

/-- `Benc::int`: the leading `-`/first-digit analysis, then `intAux`. -/
def Benc.int : Bytes → Except Err Int × Bytes
  | [] => (.error (.other "Invalid int bencoding"), [])
  | b :: bs =>
    if b = 45 then intNeg bs
    else if isDigit b then
      if b = 48 then intZero bs
      else intAux bs (b - 48) 1
    else (.error (.other "Invalid int bencoding"), bs)

/-- Apply `f` to a successful sub-parse, propagating errors and the remaining
bytes unchanged: the `Ok(Benc::from(try!(..)))` pattern of `Benc::node`. -/
def liftRes {A B : Type} (f : A → B) : Except Err A × Bytes → Except Err B × Bytes
  | (.ok a, r) => (.ok (f a), r)
  | (.error e, r) => (.error e, r)

/-- `Ok(Benc::from(try!(Benc::string(..))))`. -/
def liftString : Except Err (List Nat) × Bytes → Except Err Benc × Bytes :=
  liftRes Benc.BString

/-- `Ok(Benc::from(try!(Benc::int(..))))`. -/
def liftInt : Except Err Int × Bytes → Except Err Benc × Bytes :=
  liftRes Benc.BInt

/-- `Ok(Benc::from(try!(Benc::list(..))))`. -/
def liftList : Except Err (List Benc) × Bytes → Except Err Benc × Bytes :=
  liftRes Benc.BList

/-- `Ok(Benc::from(try!(Benc::dict(..))))`. -/
def liftDict : Except Err (List (List Nat × Benc)) × Bytes → Except Err Benc × Bytes :=
  liftRes Benc.BDict

/-- `list.push(n)` threaded through the rest of the list parse. -/
def liftCons (n : Benc) : Except Err (List Benc) × Bytes → Except Err (List Benc) × Bytes :=
  liftRes (n :: ·)

mutual

/-- `Benc::node`: read the classification byte (checking the optional delimiter,
then the null/end-of-input cases) and dispatch to the sub-parsers. -/
def Benc.node (fuel : Nat) (bs : Bytes) (delim : Option Nat) : Except Err Benc × Bytes :=
  match bs with
  | [] => (.error .endOfFile, [])
  | c :: rest =>
    if delim = some c then (.error (.delim c), rest)
    else if c = 0 then (.error .endOfFile, rest)
    else if isDigit c then liftString (Benc.string rest c)
    else if c = 105 then liftInt (Benc.int rest)
    else if c = 108 then
      match fuel with
      | 0 => (.error .fuelOut, rest)
      | fuel' + 1 => liftList (Benc.list fuel' rest)
    else if c = 100 then
      match fuel with
      | 0 => (.error .fuelOut, rest)
      | fuel' + 1 => liftDict (Benc.dict fuel' rest [] [])
    else (.error (.other "Parse error"), rest)
termination_by (fuel, 0)

/-- `Benc::list`: read nodes with `e` as the expected delimiter until the
delimiter signal arrives. -/
def Benc.list (fuel : Nat) (bs : Bytes) : Except Err (List Benc) × Bytes :=
  match fuel with
  | 0 => (.error .fuelOut, bs)
  | fuel' + 1 => Benc.listStep fuel' (Benc.node fuel' bs (some 101))
termination_by (fuel, 0)

/-- One arm of the `Benc::list` loop: push a decoded node and continue, finish
on the delimiter signal, propagate any other error. -/
def Benc.listStep (fuel : Nat) : Except Err Benc × Bytes → Except Err (List Benc) × Bytes
  | (.ok n, r) => liftCons n (Benc.list fuel r)
  | (.error (.delim _), r) => (.ok [], r)
  | (.error e, r) => (.error e, r)
termination_by _res => (fuel, 1)

/-- `Benc::dict`: read a key node, then a value node, and insert; the
delimiter signal on the key position completes the dictionary. -/
def Benc.dict (fuel : Nat) (bs : Bytes) (prevKey : List Nat)
    (acc : List (List Nat × Benc)) : Except Err (List (List Nat × Benc)) × Bytes :=
  match fuel with
  | 0 => (.error .fuelOut, bs)
  | fuel' + 1 => Benc.dictKey fuel' prevKey acc (Benc.node fuel' bs (some 101))
termination_by (fuel, 0)

/-- The key arm of the `Benc::dict` loop: the key node must be a `BString`
comparing strictly greater than `prevKey`; the delimiter signal completes the
dictionary. -/
def Benc.dictKey (fuel : Nat) (prevKey : List Nat) (acc : List (List Nat × Benc)) :
    Except Err Benc × Bytes → Except Err (List (List Nat × Benc)) × Bytes
  | (.ok (.BString k), r) =>
    if lexLt prevKey k then Benc.dictVal fuel acc k (Benc.node fuel r none)
    else (.error (.other "Invalid dict bencoding"), r)
  | (.ok _, r) => (.error (.other "Expected `BString` key for dictionary"), r)
  | (.error (.delim _), r) => (.ok acc, r)
  | (.error e, r) => (.error e, r)
termination_by _res => (fuel, 2)

/-- The value arm of the `Benc::dict` loop: insert the entry and loop with the
key as the new `prevKey`. -/
def Benc.dictVal (fuel : Nat) (acc : List (List Nat × Benc)) (k : List Nat) :
    Except Err Benc × Bytes → Except Err (List (List Nat × Benc)) × Bytes
  | (.ok v, r2) => Benc.dict fuel r2 k (acc ++ [(k, v)])
  | (.error e, r2) => (.error e, r2)
termination_by _res => (fuel, 1)

end

mutual

/-- The loop of `Benc::new`: read nodes with no delimiter expectation and
collect them. -/
def Benc.newLoop (fuel nodeFuel : Nat) (bs : Bytes) (acc : List Benc) :
    Except Err (List Benc) :=
  match fuel with
  | 0 => .error .fuelOut
  | fuel' + 1 => Benc.newStep fuel' nodeFuel acc (Benc.node nodeFuel bs none)
termination_by (fuel, 0)

/-- One arm of the `Benc::new` loop: push decoded nodes, stop successfully on
`EndOfFile`, skip `Delim` (dead code at the top level, modelled faithfully),
propagate every other error. -/
def Benc.newStep (fuel nodeFuel : Nat) (acc : List Benc) :
    Except Err Benc × Bytes → Except Err (List Benc)
  | (.ok n, r) => Benc.newLoop fuel nodeFuel r (acc ++ [n])
  | (.error .endOfFile, _) => .ok acc
  | (.error (.delim _), r) => Benc.newLoop fuel nodeFuel r acc
  | (.error e, _) => .error e
termination_by _res => (fuel, 1)

end

/-- `Benc::new` (`decode_all`): read top-level values until end of input.  The
fuel amounts are proved sufficient for every input. -/
def Benc.new (bs : Bytes) : Except Err (List Benc) :=
  Benc.newLoop (bs.length + 1) (2 * bs.length + 4) bs []

/-- Most-significant-first decimal digit bytes of a natural number
(`0` renders as exactly `"0"`, no leading zeros otherwise). -/
def natDigits (n : Nat) : List Nat :=
  if n < 10 then [48 + n]
  else natDigits (n / 10) ++ [48 + n % 10]
termination_by n
decreasing_by exact Nat.div_lt_self (by omega) (by omega)

/-- Decimal rendering of a signed integer: leading `-` if negative, no
leading zeros. -/
def intBytes (n : Int) : Bytes :=
  if n < 0 then 45 :: natDigits n.natAbs else natDigits n.natAbs

/-- Ordered insertion of a dictionary entry by raw-byte key order. -/
def insertEntry (e : List Nat × Benc) : List (List Nat × Benc) → List (List Nat × Benc)
  | [] => [e]
  | f :: fs => if lexLt e.1 f.1 then e :: f :: fs else f :: insertEntry e fs

/-- Insertion sort of dictionary entries by raw-byte key order, used by the
encoder to emit keys sorted ascending. -/
def sortEntries : List (List Nat × Benc) → List (List Nat × Benc)
  | [] => []
  | e :: es => insertEntry e (sortEntries es)

theorem sizeOf_insertEntry (e : List Nat × Benc) (l : List (List Nat × Benc)) :
    sizeOf (insertEntry e l) = 1 + sizeOf e + sizeOf l := by
  induction l with
  | nil => simp [insertEntry]
  | cons f fs ih =>
    simp only [insertEntry]
    split
    · simp [List.cons.sizeOf_spec]
    · simp [List.cons.sizeOf_spec, ih]; omega

theorem sizeOf_sortEntries (l : List (List Nat × Benc)) :
    sizeOf (sortEntries l) = sizeOf l := by
  induction l with
  | nil => rfl
  | cons e es ih => simp [sortEntries, sizeOf_insertEntry, ih, List.cons.sizeOf_spec]

mutual

/-- Modelled from the spec: the Encoder (spec §4.4) is absent from `src/`; it
is the pure function `encode(Value) -> byte sequence` with `ByteString(b)` →
decimal length, `:`, raw bytes; `Integer(n)` → `i`, decimal digits, `e`;
`List(items)` → `l`, each item in order, `e`; `Dictionary(map)` → `d`, entries
with keys sorted ascending by raw byte order, each as encoded key then encoded
value, `e`. -/
def encode : Benc → Bytes
  | .BString s => natDigits s.length ++ 58 :: s
  | .BInt n => 105 :: (intBytes n ++ [101])
  | .BList l => 108 :: (encodeList l ++ [101])
  | .BDict d => 100 :: (encodeDict (sortEntries d) ++ [101])
termination_by v => sizeOf v
decreasing_by all_goals (simp [sizeOf_sortEntries]; try omega)

/-- Modelled from the spec: list items encoded in order (spec §4.4). -/
def encodeList : List Benc → Bytes
  | [] => []
  | v :: vs => encode v ++ encodeList vs
termination_by l => sizeOf l
decreasing_by all_goals (simp; try omega)

/-- Modelled from the spec: dictionary entries encoded as key then value
(spec §4.4); `encode` hands this the entries already sorted. -/
def encodeDict : List (List Nat × Benc) → Bytes
  | [] => []
  | (k, v) :: es => encode (.BString k) ++ (encode v ++ encodeDict es)
termination_by es => sizeOf es
decreasing_by all_goals (simp; try omega)

end

/-- Keys of a dictionary body chain strictly upward in raw byte order starting
from `prev` — the invariant `Benc::dict` enforces incrementally. -/
def keysChain (prev : List Nat) : List (List Nat × Benc) → Bool
  | [] => true
  | (k, _) :: es => lexLt prev k && keysChain k es

/-- Consecutive keys strictly increasing (no condition on the first key):
"canonically ordered" exactly as the claim states it. -/
def keysSortedPairs : List (List Nat × Benc) → Bool
  | [] => true
  | [_] => true
  | (k, _) :: (k2, v2) :: es => lexLt k k2 && keysSortedPairs ((k2, v2) :: es)

mutual

/-- Every dictionary anywhere in the value has keys unique and sorted by raw
byte order — the claim's "canonically ordered dictionaries" hypothesis. -/
def dictsOrdered : Benc → Bool
  | .BString _ => true
  | .BInt _ => true
  | .BList l => dictsOrderedL l
  | .BDict d => keysSortedPairs d && dictsOrderedE d

def dictsOrderedL : List Benc → Bool
  | [] => true
  | v :: vs => dictsOrdered v && dictsOrderedL vs

def dictsOrderedE : List (List Nat × Benc) → Bool
  | [] => true
  | (_, v) :: es => dictsOrdered v && dictsOrderedE es

end

mutual

/-- The values whose encoding the decoder accepts back: dictionaries
canonically ordered with every key nonempty, byte strings (and keys) nonempty
and no longer than `usize::MAX`, integers strictly between `-2^63` and
`2^63`. -/
def canonical : Benc → Bool
  | .BString s => decide (s.length ≠ 0) && decide (s.length ≤ USIZE_MAX)
  | .BInt n => decide (-(2 ^ 63 : Int) < n) && decide (n < 2 ^ 63)
  | .BList l => canonicalL l
  | .BDict d => keysChain [] d && canonicalE d

def canonicalL : List Benc → Bool
  | [] => true
  | v :: vs => canonical v && canonicalL vs

def canonicalE : List (List Nat × Benc) → Bool
  | [] => true
  | (k, v) :: es =>
    (decide (k.length ≠ 0) && decide (k.length ≤ USIZE_MAX)) &&
      (canonical v && canonicalE es)

end

mutual

/-- Every dictionary in the value has keys that chain strictly upward from the
empty key — what `Benc::dict` guarantees about everything it returns. -/
def allDictsSorted : Benc → Bool
  | .BString _ => true
  | .BInt _ => true
  | .BList l => allDictsSortedL l
  | .BDict d => keysChain [] d && allDictsSortedE d

def allDictsSortedL : List Benc → Bool
  | [] => true
  | v :: vs => allDictsSorted v && allDictsSortedL vs

def allDictsSortedE : List (List Nat × Benc) → Bool
  | [] => true
  | (_, v) :: es => allDictsSorted v && allDictsSortedE es

end

mutual

/-- Fuel that suffices for `Benc.node` to decode the encoding of a value. -/
def fuelNeed : Benc → Nat
  | .BString _ => 0
  | .BInt _ => 0
  | .BList l => 1 + fuelNeedL l
  | .BDict d => 1 + fuelNeedE d

def fuelNeedL : List Benc → Nat
  | [] => 1
  | v :: vs => 1 + fuelNeed v + fuelNeedL vs

def fuelNeedE : List (List Nat × Benc) → Nat
  | [] => 1
  | (_, v) :: es => 1 + fuelNeed v + fuelNeedE es

end

/-- Decimal digit accumulation, the shape shared by the loops of
`Benc::string` and `Benc::int`. -/
def foldDigits : Bytes → Nat → Nat
  | [], acc => acc
  | d :: ds, acc => foldDigits ds (acc * 10 + (d - 48))

/-- `decode_all` outcomes an external caller can observe: everything except
the internal `Delim` and `EndOfFile` signals (and the embedding's fuel
artifact). -/
def cleanResult : Except Err (List Benc) → Bool
  | .error (.delim _) => false
  | .error .endOfFile => false
  | .error .fuelOut => false
  | _ => true

end Torrentlib

namespace Torrentlib

/-! ### Decimal digit facts -/

theorem natDigits_ne_nil (n : Nat) : natDigits n ≠ [] := by
  rw [natDigits]
  split
  · simp
  · simp

theorem natDigits_mem_digit (n : Nat) : ∀ d ∈ natDigits n, 48 ≤ d ∧ d ≤ 57 := by
  induction n using Nat.strong_induction_on with
  | _ n ih =>
    rw [natDigits]
    split
    · intro d hd
      simp at hd
      omega
    · intro d hd
      rcases List.mem_append.mp hd with h | h
      · exact ih (n / 10) (Nat.div_lt_self (by omega) (by omega)) d h
      · simp at h
        have : n % 10 < 10 := Nat.mod_lt _ (by omega)
        omega

theorem natDigits_head_pos (n : Nat) (hn : n ≠ 0) :
    ∀ d ds, natDigits n = d :: ds → 49 ≤ d := by
  induction n using Nat.strong_induction_on with
  | _ n ih =>
    rw [natDigits]
    split
    · intro d ds h
      simp at h
      omega
    · intro d ds h
      rcases hcons : natDigits (n / 10) with _ | ⟨d', ds'⟩
      · exact absurd hcons (natDigits_ne_nil _)
      · rw [hcons] at h
        simp at h
        have hd : n / 10 ≠ 0 := by
          have : 10 ≤ n := by omega
          have := Nat.one_le_div_iff (by omega : 0 < 10) |>.mpr this
          omega
        exact h.1 ▸ ih (n / 10) (Nat.div_lt_self (by omega) (by omega)) hd d' ds' hcons

theorem foldDigits_append (xs ys : Bytes) (acc : Nat) :
    foldDigits (xs ++ ys) acc = foldDigits ys (foldDigits xs acc) := by
  induction xs generalizing acc with
  | nil => rfl
  | cons d ds ih => simp [foldDigits, ih]

theorem foldDigits_natDigits (n : Nat) : foldDigits (natDigits n) 0 = n := by
  induction n using Nat.strong_induction_on with
  | _ n ih =>
    rw [natDigits]
    split
    · simp [foldDigits]
    · rw [foldDigits_append, ih (n / 10) (Nat.div_lt_self (by omega) (by omega))]
      simp [foldDigits]
      omega

theorem foldDigits_le (ds : Bytes) (acc : Nat) : acc ≤ foldDigits ds acc := by
  induction ds generalizing acc with
  | nil => exact Nat.le_refl _
  | cons d ds ih =>
    calc acc ≤ acc * 10 + (d - 48) := by omega
    _ ≤ foldDigits ds (acc * 10 + (d - 48)) := ih _
    _ = foldDigits (d :: ds) acc := rfl

end Torrentlib

namespace Torrentlib

/-! ### String sub-parser -/

theorem readBody_exact (s r : Bytes) (hs : s ≠ []) :
    readBody (s ++ r) s.length = (s, 0, r) := by
  induction s generalizing r with
  | nil => exact absurd rfl hs
  | cons b bs ih =>
    rcases bs with _ | ⟨b2, bs2⟩
    · simp [readBody]
    · rw [List.cons_append, readBody]
      have hlen : ¬ (b2 :: bs2 ++ r).length + 1 - 1 ≤ 0 := by simp
      simp only [List.length_cons]
      rw [if_neg (by simp)]
      simp only [Nat.add_sub_cancel]
      have h2 := ih r (by simp)
      simp only [List.length_cons] at h2
      rw [h2]

theorem stringBody_exact (s r : Bytes) (hs : s ≠ []) :
    stringBody (s ++ r) s.length = (.ok s, r) := by
  rw [stringBody, if_neg (by simpa using hs), readBody_exact s r hs]
  simp

theorem stringAux_digits (ds : Bytes) (rest : Bytes) (acc : Nat)
    (hd : ∀ d ∈ ds, 48 ≤ d ∧ d ≤ 57)
    (hb : foldDigits ds acc ≤ USIZE_MAX) :
    stringAux (ds ++ 58 :: rest) acc = stringBody rest (foldDigits ds acc) := by
  induction ds generalizing acc with
  | nil => simp [stringAux, foldDigits, isDigit]
  | cons d ds ih =>
    have hdig : 48 ≤ d ∧ d ≤ 57 := hd d (by simp)
    have hstep : foldDigits (d :: ds) acc = foldDigits ds (acc * 10 + (d - 48)) := rfl
    rw [List.cons_append, stringAux]
    rw [if_pos (by simp [isDigit]; omega)]
    rw [if_pos (by
      calc acc * 10 + (d - 48) ≤ foldDigits ds (acc * 10 + (d - 48)) := foldDigits_le _ _
      _ ≤ USIZE_MAX := hstep ▸ hb)]
    rw [ih _ (fun x hx => hd x (by simp [hx])) (hstep ▸ hb)]
    rw [hstep]

theorem string_encode (s rest : Bytes) (h1 : s ≠ []) (h2 : s.length ≤ USIZE_MAX) :
    ∀ d ds, natDigits s.length = d :: ds →
      Benc.string (ds ++ 58 :: (s ++ rest)) d = (.ok s, rest) := by
  intro d ds hnd
  have hdig := natDigits_mem_digit s.length
  rw [hnd] at hdig
  have hfold : foldDigits ds (d - 48) = s.length := by
    have := foldDigits_natDigits s.length
    rw [hnd] at this
    simpa [foldDigits] using this
  rw [Benc.string, if_pos (by
    have := hdig d (by simp)
    simp [isDigit]; omega)]
  rw [stringAux_digits ds (s ++ rest) (d - 48)
    (fun x hx => hdig x (by simp [hx])) (by rw [hfold]; exact h2)]
  rw [hfold, stringBody_exact s rest h1]

/-! ### Int sub-parser -/

theorem intAux_digits (ds : Bytes) (rest : Bytes) (acc : Nat) (sign : Int)
    (hd : ∀ d ∈ ds, 48 ≤ d ∧ d ≤ 57)
    (hb : foldDigits ds acc ≤ I64_MAX) :
    intAux (ds ++ 101 :: rest) acc sign = (.ok (sign * (foldDigits ds acc : Int)), rest) := by
  induction ds generalizing acc with
  | nil => simp [intAux, foldDigits, isDigit]
  | cons d ds ih =>
    have hdig : 48 ≤ d ∧ d ≤ 57 := hd d (by simp)
    have hstep : foldDigits (d :: ds) acc = foldDigits ds (acc * 10 + (d - 48)) := rfl
    rw [List.cons_append, intAux]
    rw [if_pos (by simp [isDigit]; omega)]
    rw [if_pos (by
      calc acc * 10 + (d - 48) ≤ foldDigits ds (acc * 10 + (d - 48)) := foldDigits_le _ _
      _ ≤ I64_MAX := hstep ▸ hb)]
    rw [ih _ (fun x hx => hd x (by simp [hx])) (hstep ▸ hb)]
    rw [hstep]

theorem int_encode (n : Int) (rest : Bytes)
    (h1 : -(2 ^ 63 : Int) < n) (h2 : n < 2 ^ 63) :
    Benc.int (intBytes n ++ 101 :: rest) = (.ok n, rest) := by
  rcases lt_trichotomy n 0 with hneg | hzero | hpos
  · -- negative: `-` then the digits of the absolute value
    have habs : 1 ≤ n.natAbs := by omega
    have hbound : (n.natAbs : Nat) ≤ I64_MAX := by
      have : (n.natAbs : Int) < 2 ^ 63 := by omega
      unfold I64_MAX
      omega
    rcases hnd : natDigits n.natAbs with _ | ⟨d, ds⟩
    · exact absurd hnd (natDigits_ne_nil _)
    have hdig := natDigits_mem_digit n.natAbs
    rw [hnd] at hdig
    have hd1 : 49 ≤ d := natDigits_head_pos n.natAbs (by omega) d ds hnd
    have hd2 : d ≤ 57 := (hdig d (by simp)).2
    have hfold : foldDigits ds (d - 48) = n.natAbs := by
      have := foldDigits_natDigits n.natAbs
      rw [hnd] at this
      simpa [foldDigits] using this
    rw [intBytes, if_pos hneg, hnd]
    show Benc.int (45 :: (d :: ds ++ 101 :: rest)) = _
    rw [Benc.int, if_pos rfl]
    simp only [List.cons_append]
    rw [intNeg, if_pos ⟨hd1, hd2⟩]
    rw [intAux_digits ds rest (d - 48) (-1)
      (fun x hx => hdig x (by simp [hx])) (by rw [hfold]; exact hbound)]
    rw [hfold]
    congr 1
    congr 1
    omega
  · -- zero: the digits are exactly `"0"`
    subst hzero
    rw [intBytes, if_neg (by omega)]
    show Benc.int (natDigits 0 ++ 101 :: rest) = _
    rw [show natDigits 0 = [48] from by rw [natDigits]; simp]
    show Benc.int (48 :: 101 :: rest) = _
    rw [Benc.int, if_neg (by omega), if_pos (by simp [isDigit]), if_pos rfl, intZero,
      if_pos rfl]
  · -- positive: plain digits with a nonzero head
    have hbound : (n.natAbs : Nat) ≤ I64_MAX := by
      have : (n.natAbs : Int) < 2 ^ 63 := by omega
      unfold I64_MAX
      omega
    rcases hnd : natDigits n.natAbs with _ | ⟨d, ds⟩
    · exact absurd hnd (natDigits_ne_nil _)
    have hdig := natDigits_mem_digit n.natAbs
    rw [hnd] at hdig
    have hd1 : 49 ≤ d := natDigits_head_pos n.natAbs (by omega) d ds hnd
    have hd2 : d ≤ 57 := (hdig d (by simp)).2
    have hfold : foldDigits ds (d - 48) = n.natAbs := by
      have := foldDigits_natDigits n.natAbs
      rw [hnd] at this
      simpa [foldDigits] using this
    rw [intBytes, if_neg (by omega), hnd]
    show Benc.int (d :: (ds ++ 101 :: rest)) = _
    rw [Benc.int, if_neg (by omega), if_pos (by simp [isDigit]; omega), if_neg (by omega)]
    rw [intAux_digits ds rest (d - 48) 1
      (fun x hx => hdig x (by simp [hx])) (by rw [hfold]; exact hbound)]
    rw [hfold]
    congr 1
    congr 1
    omega

end Torrentlib

namespace Torrentlib

/-! ### Encoder structure facts -/

theorem sortEntries_of_chain (d : List (List Nat × Benc)) :
    ∀ prev, keysChain prev d = true → sortEntries d = d := by
  induction d with
  | nil => intro prev _; rfl
  | cons e es ih =>
    intro prev h
    obtain ⟨k, v⟩ := e
    rw [keysChain, Bool.and_eq_true] at h
    rw [sortEntries, ih k h.2]
    rcases es with _ | ⟨⟨k2, v2⟩, es2⟩
    · rfl
    · rw [keysChain, Bool.and_eq_true] at h
      rw [insertEntry, if_pos h.2.1]

/-- `Benc::node` on the encoding of a byte-string value. -/
theorem node_encode_string (s : List Nat) (fuel : Nat) (delim : Option Nat) (rest : Bytes)
    (h1 : s ≠ []) (h2 : s.length ≤ USIZE_MAX)
    (hdelim : delim = none ∨ delim = some 101) :
    Benc.node fuel (encode (.BString s) ++ rest) delim = (.ok (.BString s), rest) := by
  rcases hnd : natDigits s.length with _ | ⟨d, ds⟩
  · exact absurd hnd (natDigits_ne_nil _)
  have hd1 : 49 ≤ d := natDigits_head_pos s.length (by simpa using h1) d ds hnd
  have hd2 : d ≤ 57 := (natDigits_mem_digit s.length d (by rw [hnd]; simp)).2
  rw [encode, hnd]
  show Benc.node fuel (d :: (ds ++ 58 :: s ++ rest)) delim = _
  simp only [Benc.node.eq_def]
  rw [if_neg (by rcases hdelim with h | h <;> simp [h]; omega)]
  rw [if_neg (by omega), if_pos (by simp [isDigit]; omega)]
  have := string_encode s rest h1 h2 d ds hnd
  simp only [List.append_assoc, List.cons_append] at this ⊢
  rw [this]
  rfl

/-- `Benc::node` on the encoding of an integer value. -/
theorem node_encode_int (n : Int) (fuel : Nat) (delim : Option Nat) (rest : Bytes)
    (h1 : -(2 ^ 63 : Int) < n) (h2 : n < 2 ^ 63)
    (hdelim : delim = none ∨ delim = some 101) :
    Benc.node fuel (encode (.BInt n) ++ rest) delim = (.ok (.BInt n), rest) := by
  rw [encode]
  show Benc.node fuel (105 :: (intBytes n ++ [101] ++ rest)) delim = _
  simp only [Benc.node.eq_def]
  rw [if_neg (by rcases hdelim with h | h <;> simp [h])]
  norm_num [isDigit]
  have := int_encode n rest h1 h2
  simp only [List.append_assoc, List.cons_append, List.nil_append] at this ⊢
  rw [this]
  rfl

end Torrentlib

namespace Torrentlib

theorem fuelNeedL_pos (l : List Benc) : 1 ≤ fuelNeedL l := by
  cases l <;> (rw [fuelNeedL]; try omega)

theorem fuelNeedE_pos (d : List (List Nat × Benc)) : 1 ≤ fuelNeedE d := by
  rcases d with _ | ⟨⟨k, v⟩, es⟩ <;> (rw [fuelNeedE]; try omega)

/-- `Benc::node` on a leading `l` with fuel available. -/
theorem node_108 (fuel' : Nat) (rest : Bytes) (delim : Option Nat)
    (hdelim : delim = none ∨ delim = some 101) :
    Benc.node (fuel' + 1) (108 :: rest) delim = liftList (Benc.list fuel' rest) := by
  simp only [Benc.node.eq_def]
  rw [if_neg (by rcases hdelim with h | h <;> simp [h])]
  norm_num [isDigit]

/-- `Benc::node` on a leading `d` with fuel available. -/
theorem node_100 (fuel' : Nat) (rest : Bytes) (delim : Option Nat)
    (hdelim : delim = none ∨ delim = some 101) :
    Benc.node (fuel' + 1) (100 :: rest) delim = liftDict (Benc.dict fuel' rest [] []) := by
  simp only [Benc.node.eq_def]
  rw [if_neg (by rcases hdelim with h | h <;> simp [h])]
  norm_num [isDigit]

/-- `Benc::node` reading exactly the expected delimiter. -/
theorem node_delim (fuel : Nat) (c : Nat) (rest : Bytes) :
    Benc.node fuel (c :: rest) (some c) = (.error (.delim c), rest) := by
  simp [Benc.node.eq_def]

mutual

/-- Decoding one node off the front of `encode v ++ rest` returns exactly `v`
and `rest`, for canonical `v`, sufficient fuel and the delimiters that
actually occur (`none` at the top level and for dictionary values, `e` inside
list and dictionary bodies). -/
theorem node_encode : ∀ (v : Benc) (fuel : Nat) (delim : Option Nat) (rest : Bytes),
    canonical v = true → fuelNeed v ≤ fuel → (delim = none ∨ delim = some 101) →
    Benc.node fuel (encode v ++ rest) delim = (.ok v, rest)
  | .BString s, fuel, delim, rest, hv, hf, hdelim => by
    rw [canonical] at hv
    simp only [Bool.and_eq_true, decide_eq_true_eq] at hv
    exact node_encode_string s fuel delim rest (by
      intro h
      exact hv.1 (by simp [h])) hv.2 hdelim
  | .BInt n, fuel, delim, rest, hv, hf, hdelim => by
    rw [canonical] at hv
    simp only [Bool.and_eq_true, decide_eq_true_eq] at hv
    exact node_encode_int n fuel delim rest hv.1 hv.2 hdelim
  | .BList l, fuel, delim, rest, hv, hf, hdelim => by
    rw [canonical] at hv
    rw [fuelNeed] at hf
    obtain ⟨fuel', rfl⟩ : ∃ f, fuel = f + 1 := ⟨fuel - 1, by omega⟩
    rw [encode]
    show Benc.node (fuel' + 1) (108 :: (encodeList l ++ [101] ++ rest)) delim = _
    rw [node_108 fuel' _ delim hdelim, List.append_assoc]
    show liftList (Benc.list fuel' (encodeList l ++ 101 :: rest)) = _
    rw [list_encode l fuel' rest hv (by omega)]
    rfl
  | .BDict d, fuel, delim, rest, hv, hf, hdelim => by
    rw [canonical] at hv
    simp only [Bool.and_eq_true] at hv
    rw [fuelNeed] at hf
    obtain ⟨fuel', rfl⟩ : ∃ f, fuel = f + 1 := ⟨fuel - 1, by omega⟩
    rw [encode, sortEntries_of_chain d [] hv.1]
    show Benc.node (fuel' + 1) (100 :: (encodeDict d ++ [101] ++ rest)) delim = _
    rw [node_100 fuel' _ delim hdelim, List.append_assoc]
    show liftDict (Benc.dict fuel' (encodeDict d ++ 101 :: rest) [] []) = _
    rw [dict_encode d fuel' rest [] [] hv.2 hv.1 (by omega)]
    rfl
termination_by v _ _ _ => (sizeOf v, 0)

/-- `Benc::list` consumes the encodings of the items followed by the
terminating `e`. -/
theorem list_encode : ∀ (l : List Benc) (fuel : Nat) (rest : Bytes),
    canonicalL l = true → fuelNeedL l ≤ fuel →
    Benc.list fuel (encodeList l ++ 101 :: rest) = (.ok l, rest)
  | [], fuel, rest, hv, hf => by
    obtain ⟨fuel', rfl⟩ : ∃ f, fuel = f + 1 :=
      ⟨fuel - 1, by rw [fuelNeedL] at hf; omega⟩
    rw [Benc.list, encodeList]
    show Benc.listStep fuel' (Benc.node fuel' (101 :: rest) (some 101)) = _
    rw [node_delim, Benc.listStep]
  | v :: vs, fuel, rest, hv, hf => by
    obtain ⟨fuel', rfl⟩ : ∃ f, fuel = f + 1 :=
      ⟨fuel - 1, by rw [fuelNeedL] at hf; omega⟩
    rw [canonicalL] at hv
    simp only [Bool.and_eq_true] at hv
    rw [fuelNeedL] at hf
    rw [encodeList, List.append_assoc, Benc.list]
    rw [node_encode v fuel' (some 101) (encodeList vs ++ 101 :: rest) hv.1 (by omega)
      (Or.inr rfl)]
    rw [Benc.listStep, list_encode vs fuel' rest hv.2 (by omega)]
    rfl
termination_by l _ _ => (sizeOf l, 1)

/-- `Benc::dict` consumes the encodings of the entries followed by the
terminating `e`, appending them to `acc` in order, provided the keys continue
the strict chain above `prevKey`. -/
theorem dict_encode : ∀ (d : List (List Nat × Benc)) (fuel : Nat) (rest : Bytes)
    (prev : List Nat) (acc : List (List Nat × Benc)),
    canonicalE d = true → keysChain prev d = true → fuelNeedE d ≤ fuel →
    Benc.dict fuel (encodeDict d ++ 101 :: rest) prev acc = (.ok (acc ++ d), rest)
  | [], fuel, rest, prev, acc, hv, hchain, hf => by
    obtain ⟨fuel', rfl⟩ : ∃ f, fuel = f + 1 :=
      ⟨fuel - 1, by rw [fuelNeedE] at hf; omega⟩
    rw [Benc.dict, encodeDict]
    show Benc.dictKey fuel' prev acc (Benc.node fuel' (101 :: rest) (some 101)) = _
    rw [node_delim, Benc.dictKey]
    simp
  | (k, v) :: es, fuel, rest, prev, acc, hv, hchain, hf => by
    obtain ⟨fuel', rfl⟩ : ∃ f, fuel = f + 1 :=
      ⟨fuel - 1, by rw [fuelNeedE] at hf; omega⟩
    rw [canonicalE] at hv
    simp only [Bool.and_eq_true, decide_eq_true_eq] at hv
    rw [keysChain] at hchain
    simp only [Bool.and_eq_true] at hchain
    rw [fuelNeedE] at hf
    rw [encodeDict, List.append_assoc, List.append_assoc, Benc.dict]
    rw [node_encode_string k fuel' (some 101) _
      (by intro h; exact hv.1.1 (by simp [h])) hv.1.2 (Or.inr rfl)]
    rw [Benc.dictKey, if_pos hchain.1]
    rw [node_encode v fuel' none (encodeDict es ++ 101 :: rest) hv.2.1 (by omega)
      (Or.inl rfl)]
    rw [Benc.dictVal, dict_encode es fuel' rest k (acc ++ [(k, v)]) hv.2.2 hchain.2 (by omega)]
    simp
termination_by d _ _ _ _ => (sizeOf d, 1)

end

end Torrentlib

namespace Torrentlib

theorem encode_length_pos (v : Benc) : 1 ≤ (encode v).length := by
  cases v <;> (simp [encode]; try omega)

mutual

/-- The decode fuel a canonical value needs is dominated by twice the length
of its encoding. -/
theorem fuelNeed_le : ∀ (v : Benc), canonical v = true →
    fuelNeed v + 2 ≤ 2 * (encode v).length
  | .BString s, _ => by
    have := encode_length_pos (.BString s)
    rw [fuelNeed]
    omega
  | .BInt n, _ => by
    have := encode_length_pos (.BInt n)
    rw [fuelNeed]
    omega
  | .BList l, hv => by
    rw [canonical] at hv
    have := fuelNeedL_le l hv
    rw [fuelNeed, encode]
    simp only [List.length_cons, List.length_append, List.length_singleton]
    omega
  | .BDict d, hv => by
    rw [canonical] at hv
    simp only [Bool.and_eq_true] at hv
    have := fuelNeedE_le d hv.2
    rw [fuelNeed, encode, sortEntries_of_chain d [] hv.1]
    simp only [List.length_cons, List.length_append, List.length_singleton]
    omega
termination_by v => (sizeOf v, 0)

theorem fuelNeedL_le : ∀ (l : List Benc), canonicalL l = true →
    fuelNeedL l ≤ 1 + 2 * (encodeList l).length
  | [], _ => by rw [fuelNeedL]; omega
  | v :: vs, hv => by
    rw [canonicalL] at hv
    simp only [Bool.and_eq_true] at hv
    have h1 := fuelNeed_le v hv.1
    have h2 := fuelNeedL_le vs hv.2
    rw [fuelNeedL, encodeList]
    simp only [List.length_append]
    omega
termination_by l => (sizeOf l, 1)

theorem fuelNeedE_le : ∀ (d : List (List Nat × Benc)), canonicalE d = true →
    fuelNeedE d ≤ 1 + 2 * (encodeDict d).length
  | [], _ => by rw [fuelNeedE]; omega
  | (k, v) :: es, hv => by
    rw [canonicalE] at hv
    simp only [Bool.and_eq_true] at hv
    have h1 := fuelNeed_le v hv.2.1
    have h2 := fuelNeedE_le es hv.2.2
    rw [fuelNeedE, encodeDict]
    simp only [List.length_append]
    omega
termination_by d => (sizeOf d, 1)

end

/-- `Benc::node` on an exhausted source. -/
theorem node_nil (fuel : Nat) (delim : Option Nat) :
    Benc.node fuel [] delim = (.error .endOfFile, []) := by
  rw [Benc.node.eq_def]

/-- `Benc::node` on a null byte at the top level. -/
theorem node_zero (fuel : Nat) (rest : Bytes) :
    Benc.node fuel (0 :: rest) none = (.error .endOfFile, rest) := by
  simp [Benc.node.eq_def]

/-- Decoding `encode v` followed by a null byte and anything else yields
exactly `[v]`: the null byte stops the top-level loop. -/
theorem new_encode_null (v : Benc) (rest : Bytes) (hv : canonical v = true) :
    Benc.new (encode v ++ 0 :: rest) = .ok [v] := by
  have hfuel : fuelNeed v ≤ 2 * (encode v ++ 0 :: rest).length + 4 := by
    have := fuelNeed_le v hv
    simp only [List.length_append, List.length_cons]
    omega
  rw [Benc.new, Benc.newLoop]
  rw [node_encode v _ none (0 :: rest) hv hfuel (Or.inl rfl)]
  rw [Benc.newStep]
  obtain ⟨m, hm⟩ : ∃ m, (encode v ++ 0 :: rest).length = m + 1 :=
    ⟨(encode v ++ 0 :: rest).length - 1, by simp; omega⟩
  rw [hm, Benc.newLoop, node_zero, Benc.newStep]
  rfl

/-- Decoding exactly `encode v` yields `[v]`: the exhausted source stops the
top-level loop. -/
theorem new_encode_plain (v : Benc) (hv : canonical v = true) :
    Benc.new (encode v) = .ok [v] := by
  have hfuel : fuelNeed v ≤ 2 * (encode v).length + 4 := by
    have := fuelNeed_le v hv
    omega
  rw [Benc.new, Benc.newLoop]
  have := node_encode v (2 * (encode v).length + 4) none [] hv hfuel (Or.inl rfl)
  rw [List.append_nil] at this
  rw [this, Benc.newStep]
  obtain ⟨m, hm⟩ : ∃ m, (encode v).length = m + 1 :=
    ⟨(encode v).length - 1, by have := encode_length_pos v; omega⟩
  rw [hm, Benc.newLoop, node_nil, Benc.newStep]
  rfl

end Torrentlib

namespace Torrentlib

/-! ### Byte-consumption facts: every parser leaves at most its input, and a
successful or delimiter outcome of `Benc::node` consumed at least one byte. -/

theorem liftRes_snd {A B : Type} (f : A → B) (out : Except Err A × Bytes) :
    (liftRes f out).2 = out.2 := by
  rcases out with ⟨res, r⟩
  cases res <;> rfl

theorem liftRes_fst_error {A B : Type} (f : A → B) (out : Except Err A × Bytes) (e : Err) :
    (liftRes f out).1 = .error e ↔ out.1 = .error e := by
  rcases out with ⟨res, r⟩
  cases res <;> simp [liftRes]

theorem readBody_rest_le (bs : Bytes) (len : Nat) :
    (readBody bs len).2.2.length ≤ bs.length := by
  induction bs generalizing len with
  | nil => simp [readBody]
  | cons b bs ih =>
    rw [readBody]
    split
    · simp
    · have := ih (len - 1)
      simp only [List.length_cons]
      omega

theorem stringBody_rest_le (bs : Bytes) (len : Nat) :
    (stringBody bs len).2.length ≤ bs.length := by
  rw [stringBody]
  split
  · simp
  · have := readBody_rest_le bs len
    split <;> simpa

theorem stringAux_rest_le (bs : Bytes) (len : Nat) :
    (stringAux bs len).2.length ≤ bs.length := by
  induction bs generalizing len with
  | nil => simpa using stringBody_rest_le [] len
  | cons b bs ih =>
    rw [stringAux]
    split
    · split
      · have := ih (len * 10 + (b - 48))
        simp only [List.length_cons]
        omega
      · simp
    · split
      · have := stringBody_rest_le bs len
        simp only [List.length_cons]
        omega
      · simp

theorem string_rest_le (bs : Bytes) (c : Nat) :
    (Benc.string bs c).2.length ≤ bs.length := by
  rw [Benc.string]
  split
  · exact stringAux_rest_le bs (c - 48)
  · simp

theorem intAux_rest_le (bs : Bytes) (num : Nat) (sign : Int) :
    (intAux bs num sign).2.length ≤ bs.length := by
  induction bs generalizing num with
  | nil => simp [intAux]
  | cons b bs ih =>
    rw [intAux]
    split
    · split
      · have := ih (num * 10 + (b - 48))
        simp only [List.length_cons]
        omega
      · simp
    · split <;> simp

theorem intNeg_rest_le (bs : Bytes) : (intNeg bs).2.length ≤ bs.length := by
  rcases bs with _ | ⟨c, bs'⟩
  · simp [intNeg]
  · rw [intNeg]
    split
    · have := intAux_rest_le bs' (c - 48) (-1)
      simp only [List.length_cons]
      omega
    · simp

theorem intZero_rest_le (bs : Bytes) : (intZero bs).2.length ≤ bs.length := by
  rcases bs with _ | ⟨c, bs'⟩
  · simp [intZero]
  · rw [intZero]
    split <;> simp

theorem int_rest_le (bs : Bytes) : (Benc.int bs).2.length ≤ bs.length := by
  rcases bs with _ | ⟨b, bs⟩
  · simp [Benc.int]
  · rw [Benc.int]
    split
    · have := intNeg_rest_le bs
      simp only [List.length_cons]
      omega
    · split
      · split
        · have := intZero_rest_le bs
          simp only [List.length_cons]
          omega
        · have := intAux_rest_le bs (b - 48) 1
          simp only [List.length_cons]
          omega
      · simp

/-- The consumption contract of a parser outcome relative to its input: the
rest never exceeds the input, and success or the delimiter signal consumed at
least one byte. -/
def Consumes {A : Type} (bs : Bytes) (out : Except Err A × Bytes) : Prop :=
  out.2.length ≤ bs.length ∧
  (∀ a rest, out = (.ok a, rest) → rest.length < bs.length) ∧
  (∀ b rest, out = (.error (.delim b), rest) → rest.length < bs.length)

theorem consumes_of_lt {A : Type} {bs : Bytes} {out : Except Err A × Bytes}
    (h : out.2.length < bs.length) : Consumes bs out :=
  ⟨Nat.le_of_lt h, fun _ rest he => by rw [he] at h; exact h,
    fun _ rest he => by rw [he] at h; exact h⟩

theorem consumes_error_of_le {A : Type} {bs rest : Bytes} {e : Err}
    (hle : rest.length ≤ bs.length) (hne : ∀ b, e ≠ .delim b) :
    Consumes bs ((.error e : Except Err A), rest) :=
  ⟨hle, fun _ _ he => by simp at he,
    fun b r he => by
      simp only [Prod.mk.injEq, Except.error.injEq] at he
      exact absurd he.1 (hne b)⟩

mutual

theorem node_consumes : ∀ (fuel : Nat) (bs : Bytes) (delim : Option Nat),
    Consumes bs (Benc.node fuel bs delim)
  | fuel, [], delim => by
    rw [node_nil]
    exact consumes_error_of_le (by simp) (fun _ h => Err.noConfusion h)
  | fuel, c :: rest, delim => by
    simp only [Benc.node.eq_def]
    split_ifs
    · exact consumes_of_lt (by simp)
    · exact consumes_of_lt (by simp)
    · refine consumes_of_lt ?_
      rw [liftString, liftRes_snd]
      have := string_rest_le rest c
      simp only [List.length_cons]
      omega
    · refine consumes_of_lt ?_
      rw [liftInt, liftRes_snd]
      have := int_rest_le rest
      simp only [List.length_cons]
      omega
    · cases fuel with
      | zero => exact consumes_of_lt (by simp)
      | succ fuel' =>
        refine consumes_of_lt ?_
        rw [liftList, liftRes_snd]
        have := (list_consumes fuel' rest).1
        simp only [List.length_cons]
        omega
    · cases fuel with
      | zero => exact consumes_of_lt (by simp)
      | succ fuel' =>
        refine consumes_of_lt ?_
        rw [liftDict, liftRes_snd]
        have := (dict_consumes fuel' rest [] []).1
        simp only [List.length_cons]
        omega
    · exact consumes_of_lt (by simp)
termination_by fuel _ _ => (fuel, 0)

theorem list_consumes : ∀ (fuel : Nat) (bs : Bytes), Consumes bs (Benc.list fuel bs)
  | 0, bs => by
    rw [Benc.list]
    exact consumes_error_of_le (by simp) (fun _ h => Err.noConfusion h)
  | fuel' + 1, bs => by
    rw [Benc.list]
    rcases hres : Benc.node fuel' bs (some 101) with ⟨res, r⟩
    have hcons := node_consumes fuel' bs (some 101)
    rw [hres] at hcons
    rcases res with e | n
    · rcases e with _ | m | b | _ | _
      · simp only [Benc.listStep]
        exact consumes_error_of_le hcons.1 (fun _ h => Err.noConfusion h)
      · simp only [Benc.listStep]
        exact consumes_error_of_le hcons.1 (fun _ h => Err.noConfusion h)
      · have hr : r.length < bs.length := hcons.2.2 b r rfl
        simp only [Benc.listStep]
        exact consumes_of_lt hr
      · simp only [Benc.listStep]
        exact consumes_error_of_le hcons.1 (fun _ h => Err.noConfusion h)
      · simp only [Benc.listStep]
        exact consumes_error_of_le hcons.1 (fun _ h => Err.noConfusion h)
    · have hr : r.length < bs.length := hcons.2.1 n r rfl
      simp only [Benc.listStep]
      refine consumes_of_lt ?_
      rw [liftCons, liftRes_snd]
      have := (list_consumes fuel' r).1
      omega
termination_by fuel _ => (fuel, 1)

theorem dict_consumes : ∀ (fuel : Nat) (bs : Bytes) (prev : List Nat)
    (acc : List (List Nat × Benc)), Consumes bs (Benc.dict fuel bs prev acc)
  | 0, bs, prev, acc => by
    rw [Benc.dict]
    exact consumes_error_of_le (by simp) (fun _ h => Err.noConfusion h)
  | fuel' + 1, bs, prev, acc => by
    rw [Benc.dict]
    rcases hres : Benc.node fuel' bs (some 101) with ⟨res, r⟩
    have hcons := node_consumes fuel' bs (some 101)
    rw [hres] at hcons
    rcases res with e | n
    · rcases e with _ | m | b | _ | _
      · simp only [Benc.dictKey]
        exact consumes_error_of_le hcons.1 (fun _ h => Err.noConfusion h)
      · simp only [Benc.dictKey]
        exact consumes_error_of_le hcons.1 (fun _ h => Err.noConfusion h)
      · have hr : r.length < bs.length := hcons.2.2 b r rfl
        simp only [Benc.dictKey]
        exact consumes_of_lt hr
      · simp only [Benc.dictKey]
        exact consumes_error_of_le hcons.1 (fun _ h => Err.noConfusion h)
      · simp only [Benc.dictKey]
        exact consumes_error_of_le hcons.1 (fun _ h => Err.noConfusion h)
    · have hr : r.length < bs.length := hcons.2.1 n r rfl
      cases n with
      | BString k =>
        simp only [Benc.dictKey]
        split
        · rcases hres2 : Benc.node fuel' r none with ⟨res2, r2⟩
          have hcons2 := node_consumes fuel' r none
          rw [hres2] at hcons2
          rcases res2 with e2 | v
          · simp only [Benc.dictVal]
            refine consumes_of_lt ?_
            have : r2.length ≤ r.length := hcons2.1
            simp only []
            omega
          · have hr2 : r2.length < r.length := hcons2.2.1 v r2 rfl
            simp only [Benc.dictVal]
            refine consumes_of_lt ?_
            have := (dict_consumes fuel' r2 k (acc ++ [(k, v)])).1
            omega
        · exact consumes_of_lt hr
      | BInt m => simp only [Benc.dictKey]; exact consumes_of_lt hr
      | BList l => simp only [Benc.dictKey]; exact consumes_of_lt hr
      | BDict d => simp only [Benc.dictKey]; exact consumes_of_lt hr
termination_by fuel _ _ _ => (fuel, 1)

end

end Torrentlib

namespace Torrentlib

/-! ### Fuel sufficiency: with the fuel `Benc.new` supplies, `fuelOut` is
unreachable. -/

theorem stringBody_ne_fuelOut (bs : Bytes) (len : Nat) :
    (stringBody bs len).1 ≠ .error .fuelOut := by
  rw [stringBody]
  split
  · simp
  · split <;> simp

theorem stringAux_ne_fuelOut (bs : Bytes) (len : Nat) :
    (stringAux bs len).1 ≠ .error .fuelOut := by
  induction bs generalizing len with
  | nil => exact stringBody_ne_fuelOut [] len
  | cons b bs ih =>
    rw [stringAux]
    split
    · split
      · exact ih _
      · simp
    · split
      · exact stringBody_ne_fuelOut bs len
      · simp

theorem string_ne_fuelOut (bs : Bytes) (c : Nat) :
    (Benc.string bs c).1 ≠ .error .fuelOut := by
  rw [Benc.string]
  split
  · exact stringAux_ne_fuelOut bs (c - 48)
  · simp

theorem intAux_ne_fuelOut (bs : Bytes) (num : Nat) (sign : Int) :
    (intAux bs num sign).1 ≠ .error .fuelOut := by
  induction bs generalizing num with
  | nil => simp [intAux]
  | cons b bs ih =>
    rw [intAux]
    split
    · split
      · exact ih _
      · simp
    · split <;> simp

theorem int_ne_fuelOut (bs : Bytes) : (Benc.int bs).1 ≠ .error .fuelOut := by
  rcases bs with _ | ⟨b, bs⟩
  · simp [Benc.int]
  · rw [Benc.int]
    split
    · rcases bs with _ | ⟨c, bs'⟩
      · simp [intNeg]
      · rw [intNeg]
        split
        · exact intAux_ne_fuelOut bs' (c - 48) (-1)
        · simp
    · split
      · split
        · rcases bs with _ | ⟨c, bs'⟩
          · simp [intZero]
          · rw [intZero]
            split <;> simp
        · exact intAux_ne_fuelOut bs (b - 48) 1
      · simp

mutual

theorem node_nofuel : ∀ (fuel : Nat) (bs : Bytes) (delim : Option Nat),
    2 * bs.length + 1 ≤ fuel → (Benc.node fuel bs delim).1 ≠ .error .fuelOut
  | fuel, [], delim, _ => by
    rw [node_nil]
    simp
  | fuel, c :: rest, delim, hfuel => by
    simp only [Benc.node.eq_def]
    split_ifs
    · simp
    · simp
    · rw [liftString]
      simp only [ne_eq, liftRes_fst_error]
      exact string_ne_fuelOut rest c
    · rw [liftInt]
      simp only [ne_eq, liftRes_fst_error]
      exact int_ne_fuelOut rest
    · cases fuel with
      | zero => simp at hfuel
      | succ fuel' =>
        show (liftList (Benc.list fuel' rest)).1 ≠ .error .fuelOut
        rw [liftList]
        simp only [ne_eq, liftRes_fst_error]
        refine list_nofuel fuel' rest ?_
        simp only [List.length_cons] at hfuel
        omega
    · cases fuel with
      | zero => simp at hfuel
      | succ fuel' =>
        show (liftDict (Benc.dict fuel' rest [] [])).1 ≠ .error .fuelOut
        rw [liftDict]
        simp only [ne_eq, liftRes_fst_error]
        refine dict_nofuel fuel' rest [] [] ?_
        simp only [List.length_cons] at hfuel
        omega
    · simp
termination_by fuel _ _ => (fuel, 0)

theorem list_nofuel : ∀ (fuel : Nat) (bs : Bytes),
    2 * bs.length + 2 ≤ fuel → (Benc.list fuel bs).1 ≠ .error .fuelOut
  | 0, bs, hfuel => by omega
  | fuel' + 1, bs, hfuel => by
    rw [Benc.list]
    rcases hres : Benc.node fuel' bs (some 101) with ⟨res, r⟩
    have hcons := node_consumes fuel' bs (some 101)
    rw [hres] at hcons
    rcases res with e | n
    · have hne : e ≠ .fuelOut := by
        have := node_nofuel fuel' bs (some 101) (by omega)
        rw [hres] at this
        simpa using this
      rcases e with _ | m | b | _ | _ <;> simp only [Benc.listStep] <;> simpa using hne
    · have hr : r.length < bs.length := hcons.2.1 n r rfl
      simp only [Benc.listStep]
      rw [liftCons]
      simp only [ne_eq, liftRes_fst_error]
      refine list_nofuel fuel' r ?_
      omega
termination_by fuel _ => (fuel, 1)

theorem dict_nofuel : ∀ (fuel : Nat) (bs : Bytes) (prev : List Nat)
    (acc : List (List Nat × Benc)),
    2 * bs.length + 2 ≤ fuel → (Benc.dict fuel bs prev acc).1 ≠ .error .fuelOut
  | 0, bs, prev, acc, hfuel => by omega
  | fuel' + 1, bs, prev, acc, hfuel => by
    rw [Benc.dict]
    rcases hres : Benc.node fuel' bs (some 101) with ⟨res, r⟩
    have hcons := node_consumes fuel' bs (some 101)
    rw [hres] at hcons
    rcases res with e | n
    · have hne : e ≠ .fuelOut := by
        have := node_nofuel fuel' bs (some 101) (by omega)
        rw [hres] at this
        simpa using this
      rcases e with _ | m | b | _ | _ <;> simp only [Benc.dictKey] <;> simpa using hne
    · have hr : r.length < bs.length := hcons.2.1 n r rfl
      cases n with
      | BString k =>
        simp only [Benc.dictKey]
        split
        · rcases hres2 : Benc.node fuel' r none with ⟨res2, r2⟩
          have hcons2 := node_consumes fuel' r none
          rw [hres2] at hcons2
          rcases res2 with e2 | v
          · have hne2 : e2 ≠ .fuelOut := by
              have := node_nofuel fuel' r none (by omega)
              rw [hres2] at this
              simpa using this
            simp only [Benc.dictVal]
            simpa using hne2
          · have hr2 : r2.length < r.length := hcons2.2.1 v r2 rfl
            simp only [Benc.dictVal]
            refine dict_nofuel fuel' r2 k (acc ++ [(k, v)]) ?_
            omega
        · simp
      | BInt m => simp only [Benc.dictKey]; simp
      | BList l => simp only [Benc.dictKey]; simp
      | BDict d => simp only [Benc.dictKey]; simp
termination_by fuel _ _ _ => (fuel, 1)

end

end Torrentlib

namespace Torrentlib

/-- With loop fuel above the input length and node fuel sufficient, the
`Benc::new` loop only ever produces `Ok`, `Io` or `Malformed` results. -/
theorem newLoop_clean : ∀ (fuel nodeFuel : Nat) (bs : Bytes) (acc : List Benc),
    bs.length < fuel → 2 * bs.length + 1 ≤ nodeFuel →
    cleanResult (Benc.newLoop fuel nodeFuel bs acc) = true
  | 0, _, bs, _, hfuel, _ => by omega
  | fuel' + 1, nodeFuel, bs, acc, hfuel, hnf => by
    rw [Benc.newLoop]
    rcases hres : Benc.node nodeFuel bs none with ⟨res, r⟩
    have hcons := node_consumes nodeFuel bs none
    rw [hres] at hcons
    rcases res with e | n
    · have hne : e ≠ .fuelOut := by
        have := node_nofuel nodeFuel bs none hnf
        rw [hres] at this
        simpa using this
      rcases e with _ | m | b | _ | _
      · simp [Benc.newStep, cleanResult]
      · simp [Benc.newStep, cleanResult]
      · have hr : r.length < bs.length := hcons.2.2 b r rfl
        simp only [Benc.newStep]
        exact newLoop_clean fuel' nodeFuel r acc (by omega) (by omega)
      · simp [Benc.newStep, cleanResult]
      · exact absurd rfl hne
    · have hr : r.length < bs.length := hcons.2.1 n r rfl
      simp only [Benc.newStep]
      exact newLoop_clean fuel' nodeFuel r (acc ++ [n]) (by omega) (by omega)
termination_by fuel _ _ _ => fuel

/-- `decode_all` never surfaces the internal signals: no result of `Benc.new`
is `Delim`, `EndOfFile` or the embedding's fuel artifact. -/
theorem new_clean (bs : Bytes) : cleanResult (Benc.new bs) = true := by
  rw [Benc.new]
  exact newLoop_clean (bs.length + 1) (2 * bs.length + 4) bs [] (by omega) (by omega)

/-! ### Every decoded dictionary has strictly increasing keys -/

mutual

theorem node_sorted : ∀ (fuel : Nat) (bs : Bytes) (delim : Option Nat) (v : Benc)
    (rest : Bytes), Benc.node fuel bs delim = (.ok v, rest) → allDictsSorted v = true
  | fuel, [], delim, v, rest => by
    rw [node_nil]
    intro h
    simp at h
  | fuel, c :: rest0, delim, v, rest => by
    simp only [Benc.node.eq_def]
    split_ifs
    · intro h; simp at h
    · intro h; simp at h
    · rcases hs : Benc.string rest0 c with ⟨res, r⟩
      rcases res with e | s
      · rw [liftString, liftRes]
        intro h
        simp at h
      · rw [liftString, liftRes]
        intro h
        simp only [Prod.mk.injEq, Except.ok.injEq] at h
        rw [← h.1, allDictsSorted]
    · rcases hs : Benc.int rest0 with ⟨res, r⟩
      rcases res with e | n
      · rw [liftInt, liftRes]
        intro h
        simp at h
      · rw [liftInt, liftRes]
        intro h
        simp only [Prod.mk.injEq, Except.ok.injEq] at h
        rw [← h.1, allDictsSorted]
    · cases fuel with
      | zero => intro h; simp at h
      | succ fuel' =>
        show liftList (Benc.list fuel' rest0) = _ → _
        rcases hs : Benc.list fuel' rest0 with ⟨res, r⟩
        rcases res with e | l
        · rw [liftList, liftRes]
          intro h
          simp at h
        · rw [liftList, liftRes]
          intro h
          simp only [Prod.mk.injEq, Except.ok.injEq] at h
          rw [← h.1, allDictsSorted]
          exact list_sorted fuel' rest0 l r hs
    · cases fuel with
      | zero => intro h; simp at h
      | succ fuel' =>
        show liftDict (Benc.dict fuel' rest0 [] []) = _ → _
        rcases hs : Benc.dict fuel' rest0 [] [] with ⟨res, r⟩
        rcases res with e | d
        · rw [liftDict, liftRes]
          intro h
          simp at h
        · rw [liftDict, liftRes]
          intro h
          simp only [Prod.mk.injEq, Except.ok.injEq] at h
          obtain ⟨suf, hsuf, hchain, hsorted⟩ := dict_sorted fuel' rest0 [] [] d r hs
          rw [← h.1, allDictsSorted]
          simp only [List.nil_append] at hsuf
          rw [hsuf, Bool.and_eq_true]
          exact ⟨hchain, hsorted⟩
    · intro h; simp at h
termination_by fuel _ _ _ _ => (fuel, 0)

theorem list_sorted : ∀ (fuel : Nat) (bs : Bytes) (l : List Benc) (rest : Bytes),
    Benc.list fuel bs = (.ok l, rest) → allDictsSortedL l = true
  | 0, bs, l, rest => by
    rw [Benc.list]
    intro h
    simp at h
  | fuel' + 1, bs, l, rest => by
    rw [Benc.list]
    rcases hres : Benc.node fuel' bs (some 101) with ⟨res, r⟩
    rcases res with e | n
    · rcases e with _ | m | b | _ | _ <;> simp only [Benc.listStep] <;> intro h
      · simp at h
      · simp at h
      · simp only [Prod.mk.injEq, Except.ok.injEq] at h
        rw [← h.1, allDictsSortedL]
      · simp at h
      · simp at h
    · simp only [Benc.listStep]
      rcases hres2 : Benc.list fuel' r with ⟨res2, r2⟩
      rcases res2 with e2 | l2
      · rw [liftCons, liftRes]
        intro h
        simp at h
      · rw [liftCons, liftRes]
        intro h
        simp only [Prod.mk.injEq, Except.ok.injEq] at h
        rw [← h.1, allDictsSortedL, Bool.and_eq_true]
        exact ⟨node_sorted fuel' bs (some 101) n r hres,
          list_sorted fuel' r l2 r2 hres2⟩
termination_by fuel _ _ _ => (fuel, 1)

theorem dict_sorted : ∀ (fuel : Nat) (bs : Bytes) (prev : List Nat)
    (acc : List (List Nat × Benc)) (d : List (List Nat × Benc)) (rest : Bytes),
    Benc.dict fuel bs prev acc = (.ok d, rest) →
    ∃ suf, d = acc ++ suf ∧ keysChain prev suf = true ∧ allDictsSortedE suf = true
  | 0, bs, prev, acc, d, rest => by
    rw [Benc.dict]
    intro h
    simp at h
  | fuel' + 1, bs, prev, acc, d, rest => by
    rw [Benc.dict]
    rcases hres : Benc.node fuel' bs (some 101) with ⟨res, r⟩
    rcases res with e | n
    · rcases e with _ | m | b | _ | _ <;> simp only [Benc.dictKey] <;> intro h
      · simp at h
      · simp at h
      · simp only [Prod.mk.injEq, Except.ok.injEq] at h
        refine ⟨[], by simp [← h.1], by rw [keysChain], by rw [allDictsSortedE]⟩
      · simp at h
      · simp at h
    · cases n with
      | BString k =>
        simp only [Benc.dictKey]
        split
        · rcases hres2 : Benc.node fuel' r none with ⟨res2, r2⟩
          rcases res2 with e2 | v
          · simp only [Benc.dictVal]
            intro h
            simp at h
          · simp only [Benc.dictVal]
            intro h
            obtain ⟨suf, hsuf, hchain, hsorted⟩ :=
              dict_sorted fuel' r2 k (acc ++ [(k, v)]) d rest h
            refine ⟨(k, v) :: suf, ?_, ?_, ?_⟩
            · rw [hsuf]
              simp
            · rw [keysChain, Bool.and_eq_true]
              rename_i hlt
              exact ⟨hlt, hchain⟩
            · rw [allDictsSortedE, Bool.and_eq_true]
              exact ⟨node_sorted fuel' r none v r2 hres2, hsorted⟩
        · intro h
          simp at h
      | BInt m => simp only [Benc.dictKey]; intro h; simp at h
      | BList l => simp only [Benc.dictKey]; intro h; simp at h
      | BDict d2 => simp only [Benc.dictKey]; intro h; simp at h
termination_by fuel _ _ _ _ _ => (fuel, 1)

end

/-- Every value in a successful `Benc::new` result has all its dictionaries
canonically ordered. -/
theorem newLoop_sorted : ∀ (fuel nodeFuel : Nat) (bs : Bytes) (acc vs : List Benc),
    (∀ v ∈ acc, allDictsSorted v = true) →
    Benc.newLoop fuel nodeFuel bs acc = .ok vs →
    ∀ v ∈ vs, allDictsSorted v = true
  | 0, _, bs, acc, vs, hacc => by
    rw [Benc.newLoop]
    intro h
    simp at h
  | fuel' + 1, nodeFuel, bs, acc, vs, hacc => by
    rw [Benc.newLoop]
    rcases hres : Benc.node nodeFuel bs none with ⟨res, r⟩
    rcases res with e | n
    · rcases e with _ | m | b | _ | _ <;> simp only [Benc.newStep] <;> intro h
      · simp at h
      · simp at h
      · exact newLoop_sorted fuel' nodeFuel r acc vs hacc h
      · simp only [Except.ok.injEq] at h
        rw [← h]
        exact hacc
      · simp at h
    · simp only [Benc.newStep]
      intro h
      refine newLoop_sorted fuel' nodeFuel r (acc ++ [n]) vs ?_ h
      intro v hv
      rcases List.mem_append.mp hv with hv | hv
      · exact hacc v hv
      · simp only [List.mem_singleton] at hv
        rw [hv]
        exact node_sorted nodeFuel bs none n r hres
termination_by fuel _ _ _ _ => fuel

theorem new_sorted (bs : Bytes) (vs : List Benc) (h : Benc.new bs = .ok vs) :
    ∀ v ∈ vs, allDictsSorted v = true := by
  rw [Benc.new] at h
  exact newLoop_sorted _ _ bs [] vs (by simp) h

end Torrentlib

namespace Torrentlib

/-! ### Truncated containers -/

/-- A list body without its closing `e`: the items parse, then the exhausted
source surfaces as `EndOfFile` from the item position. -/
theorem list_trunc (l : List Benc) : ∀ (fuel : Nat), canonicalL l = true →
    fuelNeedL l ≤ fuel → Benc.list fuel (encodeList l) = (.error .endOfFile, []) := by
  induction l with
  | nil =>
    intro fuel hv hf
    obtain ⟨fuel', rfl⟩ : ∃ f, fuel = f + 1 :=
      ⟨fuel - 1, by rw [fuelNeedL] at hf; omega⟩
    rw [Benc.list, encodeList, node_nil]
    simp [Benc.listStep]
  | cons v vs ih =>
    intro fuel hv hf
    obtain ⟨fuel', rfl⟩ : ∃ f, fuel = f + 1 :=
      ⟨fuel - 1, by rw [fuelNeedL] at hf; omega⟩
    rw [canonicalL] at hv
    simp only [Bool.and_eq_true] at hv
    rw [fuelNeedL] at hf
    rw [Benc.list, encodeList]
    rw [node_encode v fuel' (some 101) (encodeList vs) hv.1 (by omega) (Or.inr rfl)]
    rw [Benc.listStep, ih fuel' hv.2 (by omega)]
    rfl

/-- A dictionary body without its closing `e`. -/
theorem dict_trunc (d : List (List Nat × Benc)) : ∀ (fuel : Nat) (prev : List Nat)
    (acc : List (List Nat × Benc)), canonicalE d = true → keysChain prev d = true →
    fuelNeedE d ≤ fuel → Benc.dict fuel (encodeDict d) prev acc = (.error .endOfFile, []) := by
  induction d with
  | nil =>
    intro fuel prev acc hv hchain hf
    obtain ⟨fuel', rfl⟩ : ∃ f, fuel = f + 1 :=
      ⟨fuel - 1, by rw [fuelNeedE] at hf; omega⟩
    rw [Benc.dict, encodeDict, node_nil]
    simp [Benc.dictKey]
  | cons e es ih =>
    intro fuel prev acc hv hchain hf
    obtain ⟨k, v, rfl⟩ : ∃ k v, e = (k, v) := ⟨e.1, e.2, rfl⟩
    obtain ⟨fuel', rfl⟩ : ∃ f, fuel = f + 1 :=
      ⟨fuel - 1, by rw [fuelNeedE] at hf; omega⟩
    rw [canonicalE] at hv
    simp only [Bool.and_eq_true, decide_eq_true_eq] at hv
    rw [keysChain] at hchain
    simp only [Bool.and_eq_true] at hchain
    rw [fuelNeedE] at hf
    rw [Benc.dict, encodeDict]
    rw [node_encode_string k fuel' (some 101) _
      (by intro h; exact hv.1.1 (by simp [h])) hv.1.2 (Or.inr rfl)]
    rw [Benc.dictKey, if_pos hchain.1]
    rw [node_encode v fuel' none (encodeDict es) hv.2.1 (by omega) (Or.inl rfl)]
    rw [Benc.dictVal, ih fuel' k (acc ++ [(k, v)]) hv.2.2 hchain.2 (by omega)]

/-- `decode_all` of a list encoding whose final `e` was dropped: the list
sub-parse aborts with `EndOfFile`, which the top-level loop converts into a
successful but empty result. -/
theorem new_trunc_list (l : List Benc) (hv : canonicalL l = true) :
    Benc.new (108 :: encodeList l) = .ok [] := by
  rw [Benc.new]
  obtain ⟨m, hm⟩ : ∃ m, (108 :: encodeList l).length + 1 = m + 1 := ⟨_, rfl⟩
  rw [hm, Benc.newLoop]
  have hfuel : ∃ f, 2 * (108 :: encodeList l).length + 4 = f + 1 :=
    ⟨2 * (108 :: encodeList l).length + 3, by omega⟩
  obtain ⟨f, hf⟩ := hfuel
  rw [hf, node_108 f _ none (Or.inl rfl)]
  rw [list_trunc l f hv (by
    have := fuelNeedL_le l hv
    simp only [List.length_cons] at hf
    omega)]
  rw [liftList]
  simp [liftRes, Benc.newStep]

/-- `decode_all` of a dictionary encoding whose final `e` was dropped. -/
theorem new_trunc_dict (d : List (List Nat × Benc)) (hv : canonicalE d = true)
    (hchain : keysChain [] d = true) :
    Benc.new (100 :: encodeDict d) = .ok [] := by
  rw [Benc.new]
  obtain ⟨m, hm⟩ : ∃ m, (100 :: encodeDict d).length + 1 = m + 1 := ⟨_, rfl⟩
  rw [hm, Benc.newLoop]
  obtain ⟨f, hf⟩ : ∃ f, 2 * (100 :: encodeDict d).length + 4 = f + 1 :=
    ⟨2 * (100 :: encodeDict d).length + 3, by omega⟩
  rw [hf, node_100 f _ none (Or.inl rfl)]
  rw [dict_trunc d f [] [] hv hchain (by
    have := fuelNeedE_le d hv
    simp only [List.length_cons] at hf
    omega)]
  rw [liftDict]
  simp [liftRes, Benc.newStep]

/-! ### Overflow-checked bounds on decoded numbers -/

theorem intAux_ok_bound (bs : Bytes) : ∀ (num : Nat) (sign : Int) (n : Int) (rest : Bytes),
    num ≤ I64_MAX → (sign = 1 ∨ sign = -1) →
    intAux bs num sign = (.ok n, rest) → -(2 ^ 63 : Int) < n ∧ n < 2 ^ 63 := by
  induction bs with
  | nil =>
    intro num sign n rest hnum hsign h
    simp [intAux] at h
  | cons b bs ih =>
    intro num sign n rest hnum hsign h
    rw [intAux] at h
    split at h
    · split at h
      · exact ih _ sign n rest (by assumption) hsign h
      · simp at h
    · split at h
      · simp only [Prod.mk.injEq, Except.ok.injEq] at h
        unfold I64_MAX at hnum
        rcases hsign with rfl | rfl
        · rw [← h.1, one_mul]
          omega
        · rw [← h.1, neg_one_mul]
          omega
      · simp at h

theorem int_ok_bound (bs : Bytes) (n : Int) (rest : Bytes)
    (h : Benc.int bs = (.ok n, rest)) : -(2 ^ 63 : Int) < n ∧ n < 2 ^ 63 := by
  rcases bs with _ | ⟨b, bs⟩
  · simp [Benc.int] at h
  · rw [Benc.int] at h
    split at h
    · rcases bs with _ | ⟨c, bs'⟩
      · simp [intNeg] at h
      · rw [intNeg] at h
        split at h
        · exact intAux_ok_bound bs' (c - 48) (-1) n rest
            (by unfold I64_MAX; omega) (Or.inr rfl) h
        · simp at h
    · split at h
      · rename_i h45 hdig
        have hb : 48 ≤ b ∧ b ≤ 57 := by
          simpa [isDigit, Bool.and_eq_true] using hdig
        split at h
        · rcases bs with _ | ⟨c, bs'⟩
          · simp [intZero] at h
          · rw [intZero] at h
            split at h
            · simp only [Prod.mk.injEq, Except.ok.injEq] at h
              rw [← h.1]
              norm_num
            · simp at h
        · exact intAux_ok_bound bs (b - 48) 1 n rest
            (by unfold I64_MAX; omega) (Or.inl rfl) h
      · simp at h

theorem readBody_count (bs : Bytes) : ∀ (len : Nat), 1 ≤ len →
    (readBody bs len).1.length + (readBody bs len).2.1 = len := by
  induction bs with
  | nil => intro len _; simp [readBody]
  | cons b bs ih =>
    intro len hlen
    rw [readBody]
    split
    · simp
      omega
    · have := ih (len - 1) (by omega)
      simp only [List.length_cons]
      omega

theorem stringBody_ok_len (bs : Bytes) (len : Nat) (s : List Nat) (rest : Bytes)
    (h : stringBody bs len = (.ok s, rest)) : s.length = len := by
  rw [stringBody] at h
  split at h
  · simp at h
  · split at h
    · simp only [Prod.mk.injEq, Except.ok.injEq] at h
      have hc := readBody_count bs len (by omega)
      rename_i hlen hrem
      rw [← h.1]
      omega
    · simp at h

theorem stringAux_ok_bound (bs : Bytes) : ∀ (len : Nat) (s : List Nat) (rest : Bytes),
    len ≤ USIZE_MAX → stringAux bs len = (.ok s, rest) → s.length ≤ USIZE_MAX := by
  induction bs with
  | nil =>
    intro len s rest hlen h
    rw [stringAux] at h
    rw [stringBody_ok_len [] len s rest h]
    exact hlen
  | cons b bs ih =>
    intro len s rest hlen h
    rw [stringAux] at h
    split at h
    · split at h
      · exact ih _ s rest (by assumption) h
      · simp at h
    · split at h
      · rw [stringBody_ok_len bs len s rest h]
        exact hlen
      · simp at h

theorem string_ok_bound (bs : Bytes) (c : Nat) (s : List Nat) (rest : Bytes)
    (h : Benc.string bs c = (.ok s, rest)) : s.length ≤ USIZE_MAX := by
  rw [Benc.string] at h
  split at h
  · rename_i hdig
    have hb : 48 ≤ c ∧ c ≤ 57 := by
      simpa [isDigit, Bool.and_eq_true] using hdig
    refine stringAux_ok_bound bs (c - 48) s rest ?_ h
    unfold USIZE_MAX
    omega
  · simp at h

/-! ### The integer front end and non-canonical string lengths -/

/-- A `-` not followed by a digit `1`–`9` is rejected. -/
theorem int_neg_nondigit (b : Nat) (rest : Bytes) (h : ¬(49 ≤ b ∧ b ≤ 57)) :
    Benc.int (45 :: b :: rest) = (.error (.other "Invalid int bencoding"), rest) := by
  rw [Benc.int, if_pos rfl, intNeg, if_neg h]

/-- A leading `0` not followed by the terminator is rejected. -/
theorem int_zero_nonterm (b : Nat) (rest : Bytes) (h : b ≠ 101) :
    Benc.int (48 :: b :: rest) = (.error (.other "Invalid int bencoding"), rest) := by
  rw [Benc.int, if_neg (by omega), if_pos (by simp [isDigit]), if_pos rfl, intZero,
    if_neg h]

/-- A leading zero in a string length prefix only shifts the accumulation:
`Benc::string` starting from `0` and then reading digit `c` behaves exactly as
starting from `c`. -/
theorem string_leading_zero (c : Nat) (bs : Bytes) (h1 : 48 ≤ c) (h2 : c ≤ 57) :
    Benc.string (c :: bs) 48 = Benc.string bs c := by
  have hd48 : isDigit 48 = true := by simp [isDigit]
  have hdc : isDigit c = true := by simp [isDigit]; omega
  rw [Benc.string, if_pos hd48, Benc.string, if_pos hdc]
  norm_num
  rw [stringAux, if_pos hdc, if_pos (by unfold USIZE_MAX; omega)]
  norm_num

end Torrentlib

namespace Torrentlib

/-! ### The claims -/

/-- C1 (counterexample): the round trip fails for the empty byte string, whose
dictionaries are (vacuously) canonically ordered: it encodes as `0:`, which
the decoder rejects as a zero-length prefix, so decoding does not yield the
value back. -/
theorem claim1_roundtrip_counterexample :
    dictsOrdered (.BString []) = true ∧
      Benc.new (encode (.BString []) ++ [0]) ≠ .ok [.BString []] := by
  constructor
  · simp [dictsOrdered]
  · have henc : encode (.BString []) = [48, 58] := by simp [encode, natDigits]
    rw [henc]
    simp [Benc.new, Benc.newLoop, Benc.newStep, Benc.node, Benc.list, Benc.listStep,
      Benc.dict, Benc.dictKey, Benc.dictVal, liftRes, liftString, liftInt, liftList,
      liftDict, liftCons, Benc.string, stringAux, stringBody, readBody, Benc.int,
      intAux, intNeg, intZero, isDigit, lexLt, USIZE_MAX, I64_MAX]

/-- C1 (amended): the round trip holds for every `Value` whose dictionaries
are canonically ordered with nonempty keys, whose byte strings are nonempty
and no longer than `usize::MAX`, and whose integers lie strictly between
`-2^63` and `2^63`: decoding `encode v` followed by the terminator as the
sole top-level value yields exactly `[v]`. -/
theorem claim1_roundtrip (v : Benc) (hv : canonical v = true) :
    Benc.new (encode v ++ [0]) = .ok [v] :=
  new_encode_null v [] hv

theorem claim1_roundtrip_witness :
    canonical (.BDict [([104, 105], .BString [104, 101, 108, 108, 111]),
      ([105, 110], .BInt (-42))]) = true ∧
    Benc.new (encode (.BDict [([104, 105], .BString [104, 101, 108, 108, 111]),
      ([105, 110], .BInt (-42))]) ++ [0]) =
      .ok [.BDict [([104, 105], .BString [104, 101, 108, 108, 111]),
        ([105, 110], .BInt (-42))]] :=
  ⟨by simp [canonical, canonicalL, canonicalE, keysChain, lexLt, USIZE_MAX],
    claim1_roundtrip _
      (by simp [canonical, canonicalL, canonicalE, keysChain, lexLt, USIZE_MAX])⟩

/-- C2 (counterexample): decoding `l5:helloi42e` — the list `l5:helloi42ee`
truncated before its final `e` — does not fail: `decode_all` returns the
successful empty sequence, because the list sub-parser's `EndOfFile` is
converted into clean termination by the top-level loop. -/
theorem claim2_truncated_counterexample :
    Benc.new [108, 53, 58, 104, 101, 108, 108, 111, 105, 52, 50, 101] = .ok [] := by
  simp [Benc.new, Benc.newLoop, Benc.newStep, Benc.node, Benc.list, Benc.listStep,
    Benc.dict, Benc.dictKey, Benc.dictVal, liftRes, liftString, liftInt, liftList,
    liftDict, liftCons, Benc.string, stringAux, stringBody, readBody, Benc.int,
    intAux, intNeg, intZero, isDigit, lexLt, USIZE_MAX, I64_MAX]

/-- C2 (amended): when a list or dictionary body is exhausted at an item
boundary before the closing `e`, the sub-parser aborts with the internal
`EndOfFile` error — not `Malformed` — and `decode_all` converts that into a
successful result that omits the truncated container (for canonical item
sequences, the whole decode returns the empty sequence). -/
theorem claim2_truncated :
    (∀ (l : List Benc) (fuel : Nat), canonicalL l = true → fuelNeedL l ≤ fuel →
      (Benc.list fuel (encodeList l)).1 = .error .endOfFile) ∧
    (∀ l : List Benc, canonicalL l = true → Benc.new (108 :: encodeList l) = .ok []) ∧
    (∀ d : List (List Nat × Benc), canonicalE d = true → keysChain [] d = true →
      Benc.new (100 :: encodeDict d) = .ok []) := by
  refine ⟨fun l fuel hv hf => ?_, fun l hv => new_trunc_list l hv,
    fun d hv hc => new_trunc_dict d hv hc⟩
  rw [list_trunc l fuel hv hf]

theorem claim2_truncated_witness :
    canonicalL [Benc.BString [104, 101, 108, 108, 111], Benc.BInt 42] = true ∧
    Benc.new (108 :: encodeList [Benc.BString [104, 101, 108, 108, 111],
      Benc.BInt 42]) = .ok [] :=
  ⟨by simp [canonicalL, canonical, USIZE_MAX],
    claim2_truncated.2.1 _ (by simp [canonicalL, canonical, USIZE_MAX])⟩

/-- C3: dictionary keys are validated incrementally: every successfully
decoded tree has all its dictionaries with keys strictly increasing in raw
byte order from the empty key (hence unique); a non-string key aborts with
the dedicated `Malformed` message, and a duplicate or out-of-order key aborts
with the dictionary `Malformed` message. -/
theorem claim3_dict_keys :
    (∀ (bs : Bytes) (vs : List Benc), Benc.new bs = .ok vs →
      ∀ v ∈ vs, allDictsSorted v = true) ∧
    Benc.new [100, 105, 48, 101, 105, 48, 101, 101] =
      .error (.other "Expected `BString` key for dictionary") ∧
    Benc.new [100, 49, 58, 97, 105, 48, 101, 49, 58, 97, 105, 48, 101, 101] =
      .error (.other "Invalid dict bencoding") ∧
    Benc.new [100, 49, 58, 98, 105, 48, 101, 49, 58, 97, 105, 48, 101, 101] =
      .error (.other "Invalid dict bencoding") := by
  refine ⟨new_sorted, ?_, ?_, ?_⟩ <;>
    simp [Benc.new, Benc.newLoop, Benc.newStep, Benc.node, Benc.list, Benc.listStep,
      Benc.dict, Benc.dictKey, Benc.dictVal, liftRes, liftString, liftInt, liftList,
      liftDict, liftCons, Benc.string, stringAux, stringBody, readBody, Benc.int,
      intAux, intNeg, intZero, isDigit, lexLt, USIZE_MAX, I64_MAX]

theorem claim3_dict_keys_witness :
    allDictsSorted (.BDict [([97], .BInt 0)]) = true :=
  claim3_dict_keys.1 [100, 49, 58, 97, 105, 48, 101, 101] [.BDict [([97], .BInt 0)]]
    (by simp [Benc.new, Benc.newLoop, Benc.newStep, Benc.node, Benc.list,
      Benc.listStep, Benc.dict, Benc.dictKey, Benc.dictVal, liftRes, liftString,
      liftInt, liftList, liftDict, liftCons, Benc.string, stringAux, stringBody,
      readBody, Benc.int, intAux, intNeg, intZero, isDigit, lexLt, USIZE_MAX,
      I64_MAX])
    (.BDict [([97], .BInt 0)]) (by simp)

/-- C4: string decoding: `5:hello` yields the bytes of `hello`; after the `:`
exactly `length` raw bytes are read verbatim (any byte value, the null byte
included, is kept as data); a source exhausted before `length` bytes
(`6:hello`) fails; and the zero-length prefix `0:` fails. -/
theorem claim4_strings :
    Benc.new [53, 58, 104, 101, 108, 108, 111] =
      .ok [.BString [104, 101, 108, 108, 111]] ∧
    Benc.new [50, 58, 0, 7] = .ok [.BString [0, 7]] ∧
    (∀ (s rest : Bytes), s ≠ [] → stringBody (s ++ rest) s.length = (.ok s, rest)) ∧
    Benc.new [54, 58, 104, 101, 108, 108, 111] =
      .error (.other "Invalid string bencoding") ∧
    Benc.new [48, 58] = .error (.other "Invalid string bencoding") := by
  refine ⟨?_, ?_, fun s rest hs => stringBody_exact s rest hs, ?_, ?_⟩ <;>
    simp [Benc.new, Benc.newLoop, Benc.newStep, Benc.node, Benc.list, Benc.listStep,
      Benc.dict, Benc.dictKey, Benc.dictVal, liftRes, liftString, liftInt, liftList,
      liftDict, liftCons, Benc.string, stringAux, stringBody, readBody, Benc.int,
      intAux, intNeg, intZero, isDigit, lexLt, USIZE_MAX, I64_MAX]

theorem claim4_strings_witness :
    stringBody ([104] ++ [58]) ([104] : List Nat).length = (.ok [104], [58]) :=
  claim4_strings.2.2.1 [104] [58] (by simp)

/-- C5: canonical integer decoding: `i0e` → 0 and `i-5e` → -5, while `i00e`,
`i05e`, `i-0e` and `ie` all fail as `Malformed`; a `-` must be followed
immediately by a digit `1`–`9`, and a leading `0` must be followed
immediately by the terminator. -/
theorem claim5_integers :
    Benc.new [105, 48, 101] = .ok [.BInt 0] ∧
    Benc.new [105, 45, 53, 101] = .ok [.BInt (-5)] ∧
    Benc.new [105, 48, 48, 101] = .error (.other "Invalid int bencoding") ∧
    Benc.new [105, 48, 53, 101] = .error (.other "Invalid int bencoding") ∧
    Benc.new [105, 45, 48, 101] = .error (.other "Invalid int bencoding") ∧
    Benc.new [105, 101] = .error (.other "Invalid int bencoding") ∧
    (∀ (b : Nat) (rest : Bytes), ¬(49 ≤ b ∧ b ≤ 57) →
      Benc.int (45 :: b :: rest) = (.error (.other "Invalid int bencoding"), rest)) ∧
    (∀ (b : Nat) (rest : Bytes), b ≠ 101 →
      Benc.int (48 :: b :: rest) = (.error (.other "Invalid int bencoding"), rest)) := by
  refine ⟨?_, ?_, ?_, ?_, ?_, ?_,
    fun b rest h => int_neg_nondigit b rest h,
    fun b rest h => int_zero_nonterm b rest h⟩ <;>
    simp [Benc.new, Benc.newLoop, Benc.newStep, Benc.node, Benc.list, Benc.listStep,
      Benc.dict, Benc.dictKey, Benc.dictVal, liftRes, liftString, liftInt, liftList,
      liftDict, liftCons, Benc.string, stringAux, stringBody, readBody, Benc.int,
      intAux, intNeg, intZero, isDigit, lexLt, USIZE_MAX, I64_MAX]

theorem claim5_integers_witness :
    Benc.int (45 :: 48 :: [101]) = (.error (.other "Invalid int bencoding"), [101]) ∧
    Benc.int (48 :: 48 :: [101]) = (.error (.other "Invalid int bencoding"), [101]) :=
  ⟨claim5_integers.2.2.2.2.2.2.1 48 [101] (by omega),
    claim5_integers.2.2.2.2.2.2.2 48 [101] (by omega)⟩

/-- C6: all integer accumulation is overflow-checked: every successfully
decoded integer lies strictly within the signed 64-bit range and every
successfully decoded string length fits `usize`; literals exceeding the range
fail as `Malformed` (`Integer overflow`), never wrapping. -/
theorem claim6_overflow :
    (∀ (bs : Bytes) (n : Int) (rest : Bytes), Benc.int bs = (.ok n, rest) →
      -(2 ^ 63 : Int) < n ∧ n < 2 ^ 63) ∧
    (∀ (bs : Bytes) (c : Nat) (s : List Nat) (rest : Bytes),
      Benc.string bs c = (.ok s, rest) → s.length ≤ USIZE_MAX) ∧
    Benc.new ([105] ++ [57, 50, 50, 51, 51, 55, 50, 48, 51, 54, 56, 53, 52, 55,
      55, 53, 56, 48, 56] ++ [101]) = .error (.other "Integer overflow") ∧
    Benc.new ([49, 56, 52, 52, 54, 55, 52, 52, 48, 55, 51, 55, 48, 57, 53, 53,
      49, 54, 49, 54] ++ [58, 120]) = .error (.other "Integer overflow") := by
  refine ⟨fun bs n rest h => int_ok_bound bs n rest h,
    fun bs c s rest h => string_ok_bound bs c s rest h, ?_, ?_⟩ <;>
    simp [Benc.new, Benc.newLoop, Benc.newStep, Benc.node, Benc.list, Benc.listStep,
      Benc.dict, Benc.dictKey, Benc.dictVal, liftRes, liftString, liftInt, liftList,
      liftDict, liftCons, Benc.string, stringAux, stringBody, readBody, Benc.int,
      intAux, intNeg, intZero, isDigit, lexLt, USIZE_MAX, I64_MAX]

theorem claim6_overflow_witness :
    (-(2 ^ 63 : Int) < 5 ∧ (5 : Int) < 2 ^ 63) ∧
      ([104] : List Nat).length ≤ USIZE_MAX :=
  ⟨claim6_overflow.1 [53, 101] 5 [] rfl,
    claim6_overflow.2.1 [58, 104] 49 [104] [] rfl⟩

/-- C7: the internal outcome kinds are never observed by callers: for every
byte source, `decode_all` returns neither the delimiter signal nor
`EndOfFile` (nor the embedding's fuel artifact) — and the empty source
terminates the loop cleanly with an empty successful sequence. -/
theorem claim7_internal_signals :
    (∀ bs : Bytes, cleanResult (Benc.new bs) = true) ∧ Benc.new [] = .ok [] := by
  refine ⟨fun bs => new_clean bs, ?_⟩
  simp [Benc.new, Benc.newLoop, Benc.newStep, Benc.node, Benc.list, Benc.listStep,
    Benc.dict, Benc.dictKey, Benc.dictVal, liftRes, liftString, liftInt, liftList,
    liftDict, liftCons, Benc.string, stringAux, stringBody, readBody, Benc.int,
    intAux, intNeg, intZero, isDigit, lexLt, USIZE_MAX, I64_MAX]

/-- C8: a null byte where a new top-level node is expected is treated exactly
like end of input: `decode_all` stops and returns the values decoded so far,
whatever follows the null byte; a null byte inside a string body is ordinary
data preserved verbatim. -/
theorem claim8_null_byte :
    (∀ bs : Bytes, Benc.new (0 :: bs) = .ok []) ∧
    (∀ (v : Benc) (rest : Bytes), canonical v = true →
      Benc.new (encode v ++ 0 :: rest) = .ok [v]) ∧
    Benc.new [50, 58, 0, 97] = .ok [.BString [0, 97]] := by
  refine ⟨fun bs => ?_, fun v rest hv => new_encode_null v rest hv, ?_⟩
  · rw [Benc.new, Benc.newLoop, node_zero]
    simp [Benc.newStep]
  · simp [Benc.new, Benc.newLoop, Benc.newStep, Benc.node, Benc.list, Benc.listStep,
      Benc.dict, Benc.dictKey, Benc.dictVal, liftRes, liftString, liftInt, liftList,
      liftDict, liftCons, Benc.string, stringAux, stringBody, readBody, Benc.int,
      intAux, intNeg, intZero, isDigit, lexLt, USIZE_MAX, I64_MAX]

theorem claim8_null_byte_witness :
    Benc.new (encode (.BInt 7) ++ 0 :: [105]) = .ok [.BInt 7] :=
  claim8_null_byte.2.1 (.BInt 7) [105] (by simp [canonical])

/-- C9: the most negative 64-bit integer is not decodable: the literal
`i-9223372036854775808e` fails with the overflow error because the magnitude
is accumulated in a non-negative signed 64-bit value before the sign is
applied; every integer strictly between `-2^63` and `2^63` is decodable, and
only such integers are ever produced, so the decodable set is exactly
`[-(2^63 - 1), 2^63 - 1]`. -/
theorem claim9_min_int :
    Benc.new ([105, 45] ++ [57, 50, 50, 51, 51, 55, 50, 48, 51, 54, 56, 53, 52,
      55, 55, 53, 56, 48, 56] ++ [101]) = .error (.other "Integer overflow") ∧
    (∀ n : Int, -(2 ^ 63 : Int) < n → n < 2 ^ 63 →
      Benc.new (105 :: (intBytes n ++ [101])) = .ok [.BInt n]) ∧
    (∀ (bs : Bytes) (n : Int) (rest : Bytes), Benc.int bs = (.ok n, rest) →
      -(2 ^ 63 : Int) < n ∧ n < 2 ^ 63) := by
  refine ⟨?_, fun n h1 h2 => ?_, fun bs n rest h => int_ok_bound bs n rest h⟩
  · simp [Benc.new, Benc.newLoop, Benc.newStep, Benc.node, Benc.list, Benc.listStep,
      Benc.dict, Benc.dictKey, Benc.dictVal, liftRes, liftString, liftInt, liftList,
      liftDict, liftCons, Benc.string, stringAux, stringBody, readBody, Benc.int,
      intAux, intNeg, intZero, isDigit, lexLt, USIZE_MAX, I64_MAX]
  · have := new_encode_plain (.BInt n) (by
      rw [canonical]
      simp only [Bool.and_eq_true, decide_eq_true_eq]
      exact ⟨h1, h2⟩)
    rw [encode] at this
    exact this

theorem claim9_min_int_witness :
    Benc.new (105 :: (intBytes (-3) ++ [101])) = .ok [.BInt (-3)] :=
  claim9_min_int.2.1 (-3) (by norm_num) (by norm_num)

/-- C10: leading zeros in a string length prefix are accepted as
non-canonical but valid: a prefix `0` followed by digits decodes like the
digits alone (`05:hello` equals `5:hello` and decodes to `hello`); only a
total length of zero is rejected (`00:` fails). -/
theorem claim10_leading_zeros :
    (∀ (c : Nat) (bs : Bytes), 48 ≤ c → c ≤ 57 →
      Benc.string (c :: bs) 48 = Benc.string bs c) ∧
    Benc.new [48, 53, 58, 104, 101, 108, 108, 111] =
      .ok [.BString [104, 101, 108, 108, 111]] ∧
    Benc.new [48, 53, 58, 104, 101, 108, 108, 111] =
      Benc.new [53, 58, 104, 101, 108, 108, 111] ∧
    Benc.new [48, 48, 58] = .error (.other "Invalid string bencoding") := by
  refine ⟨fun c bs h1 h2 => string_leading_zero c bs h1 h2, ?_, ?_, ?_⟩ <;>
    simp [Benc.new, Benc.newLoop, Benc.newStep, Benc.node, Benc.list, Benc.listStep,
      Benc.dict, Benc.dictKey, Benc.dictVal, liftRes, liftString, liftInt, liftList,
      liftDict, liftCons, Benc.string, stringAux, stringBody, readBody, Benc.int,
      intAux, intNeg, intZero, isDigit, lexLt, USIZE_MAX, I64_MAX]

theorem claim10_leading_zeros_witness :
    Benc.string [53, 58, 104] 48 = Benc.string [58, 104] 53 :=
  claim10_leading_zeros.1 53 [58, 104] (by omega) (by omega)

end Torrentlib
